import Mathlib

/-!
Verification development for the lzfse_rust codec core.

This file gives a shallow embedding, in Lean 4, of the parts of the
`lzfse_rust` repository that the frozen claims C1..C10 talk about, and
settles each claim against it.

Conventions:
* Machine integers are modelled as `Nat` / `Int`. `usize`/`isize` values in
  the bit reader are modelled as unbounded integers with the masking the
  source performs written out explicitly; the source operations used here
  never rely on 64-bit wrap.
* Fallible Rust code (`crate::Result`) is modelled with `Except Error`.
* Byte buffers are `List Nat` (each element a byte value).
* Rust modules map to Lean namespaces; definitions keep the source names
  (camel-cased) wherever Lean allows it.
* A few items the embedding needs are not present under `src/` (the crate's
  `types::Idx`, `fse/constants.rs`, `fse/block.rs`, `raw/`): these are
  modelled from the specification and are marked `Modelled from the spec:`
  in their doc comments.
-/

/-- Error kinds, flattened from `src/src/fse/error.rs` (enum `Error`) together
with the crate-level bit-stream errors (`BadBitStream`, `PayloadUnderflow`)
that `src/src/bits/bit_reader.rs` produces. Only the variants exercised by
the claims are carried. -/
inductive Error where
  | badBitStream
  | payloadUnderflow
  | badLiteralPayload
  | badLiteralState
  | badLmdPayload
  | badLmdState
  deriving DecidableEq, Repr

namespace Bits

/-- Little-endian read of eight bytes starting at position `i` of `src`,
as performed by `<&[u8] as BitSrc>::read_bytes` (src/src/bits/bit_src.rs)
on a 64-bit target. Positions past the end read as zero; the source
guarantees in-bounds reads on the paths modelled here. -/
def readLE64 (src : List Nat) (i : Nat) : Nat :=
  (List.range 8).foldr (fun j acc => acc * 256 + src.getD (i + j) 0) 0

/-- Signed-index read: `read_bytes` returns 0 for negative indices
(src/src/bits/bit_src.rs lines 35-45). -/
def readBytes (src : List Nat) (i : Int) : Nat :=
  if 0 ≤ i then readLE64 src i.toNat else 0

/-- Zero the most significant bits, keeping `nBits`: `bit_mask::mask`
(src/src/bits/bit_mask.rs); the table entry `MASK_TABLE[n_bits & 63]`
is `2 ^ (n_bits % 64) - 1`. -/
def mask (lhs nBits : Nat) : Nat :=
  lhs % 2 ^ (nBits % 64)

/-- ACCUM_MAX for a 64-bit target (src/src/bits/bit_reader.rs line 8). -/
def ACCUM_MAX : Int := 64

/-- The bit reader state: `BitReader` (src/src/bits/bit_reader.rs lines
13-18), with its source carried inline. -/
structure BitReader where
  accumData : Nat
  accumBits : Int
  index : Int
  src : List Nat
  deriving DecidableEq, Repr

namespace BitReader

/-- Constructor `BitReader::new` (src/src/bits/bit_reader.rs lines 22-34).
`off` is the initial bit offset inside the first word; the high bits above
`accum_bits` must be zero when `off ≠ 0`. -/
def new (src : List Nat) (off : Nat) : Except Error BitReader :=
  let index : Int := (src.length : Int) - 8
  let accumData := readBytes src index
  let accumBits : Int := 64 - (off : Int)
  if off ≠ 0 ∧ accumData / 2 ^ (64 - off) ≠ 0 then
    .error .badBitStream
  else
    .ok ⟨accumData, accumBits, index, src⟩

/-- `BitReader::flush` (src/src/bits/bit_reader.rs lines 43-54): advance
`index` down by `(ACCUM_MAX - accum_bits) / 8` bytes, refill `accum_data`
from the new position and raise `accum_bits` accordingly. -/
def flush (r : BitReader) : BitReader :=
  let nBytes : Nat := (ACCUM_MAX - r.accumBits).toNat / 8
  let index := r.index - nBytes
  { r with
    index := index
    accumData := readBytes r.src index
    accumBits := r.accumBits + nBytes * 8 }

/-- `BitReader::pull` (src/src/bits/bit_reader.rs lines 60-66): subtract
`n_bits` from `accum_bits` and return the bits above the new watermark.
The shift amount is taken `& (ACCUM_MAX - 1)` as in the source. -/
def pull (r : BitReader) (nBits : Nat) : Nat × BitReader :=
  let accumBits := r.accumBits - nBits
  let accumShift := r.accumData / 2 ^ (accumBits % 64).toNat
  (mask accumShift nBits, { r with accumBits := accumBits })

/-- `BitReader::finalize` (src/src/bits/bit_reader.rs lines 69-75): one
final flush, then fail with `PayloadUnderflow` unless
`accum_bits + index * 8 ≥ 64`. -/
def finalize (r : BitReader) : Except Error Unit :=
  let r := r.flush
  if r.accumBits + r.index * 8 < 64 then .error .payloadUnderflow else .ok ()

end BitReader

/-- A consumer-side bit reader operation: a `flush` or a `pull n`. -/
inductive Op where
  | flushOp
  | pullOp (n : Nat)
  deriving DecidableEq, Repr

/-- Run a sequence of operations against a reader, discarding pulled
values (the accounting, not the data, is at issue in claim C7). -/
def runOps (ops : List Op) (r : BitReader) : BitReader :=
  ops.foldl (fun r op => match op with
    | .flushOp => r.flush
    | .pullOp n => (r.pull n).2) r

/-- Total number of bits pulled by a sequence of operations. -/
def pulledBits : List Op → Nat
  | [] => 0
  | .flushOp :: ops => pulledBits ops
  | .pullOp n :: ops => n + pulledBits ops

/-- The number of payload bits a source of `len` bytes at initial bit
offset `off` supplies: everything past the eight-byte left pad minus the
dead `off` bits atop the first word (spec section 4.1). -/
def suppliedBits (len : Nat) (off : Nat) : Int :=
  8 * ((len : Int) - 8) - off

end Bits

namespace Fse

/-- Modelled from the spec: `fse/constants.rs` is absent from `src/`;
section 3 of the spec fixes `L_STATES = 64`. -/
def L_STATES : Nat := 64

/-- Modelled from the spec: `M_STATES = 64` (spec section 3). -/
def M_STATES : Nat := 64

/-- Modelled from the spec: `D_STATES = 256` (spec section 3). -/
def D_STATES : Nat := 256

/-- Modelled from the spec: `U_STATES = 1024` (spec section 3). -/
def U_STATES : Nat := 1024

/-- LMD decoder table entry `VEntry` (src/src/fse/decoder.rs lines
205-212): `k` bits feed the state transition, `v_bits` extra bits and
`v_base` form the decoded value, `delta` is the state bias. -/
structure VEntry where
  k : Nat
  vBits : Nat
  delta : Int
  vBase : Nat
  deriving DecidableEq, Repr, Inhabited

/-- `VEntry::decode` (src/src/fse/decoder.rs lines 214-220): the new state
is `pull(k) + delta`; the value is `v_base + pull(v_bits)`. Returns
(new state, value, reader after both pulls). The state is carried as an
`Int`; the source's `as usize` cast never wraps for table-built entries. -/
def VEntry.decode (e : VEntry) (r : Bits.BitReader) : Int × Nat × Bits.BitReader :=
  let p1 := r.pull e.k
  let state : Int := (p1.1 : Int) + e.delta
  let p2 := p1.2.pull e.vBits
  (state, e.vBase + p2.1, p2.2)

/-- Literal decoder table entry `UEntry` (src/src/fse/decoder.rs lines
222-228). -/
structure UEntry where
  k : Nat
  symbol : Nat
  delta : Int
  deriving DecidableEq, Repr, Inhabited

/-- `UEntry::decode` (src/src/fse/decoder.rs lines 230-236): the new state
is `pull(k) + delta`; the decoded byte is `symbol`. -/
def UEntry.decode (e : UEntry) (r : Bits.BitReader) : Int × Nat × Bits.BitReader :=
  let p1 := r.pull e.k
  (((p1.1 : Int) + e.delta), e.symbol, p1.2)

/-- Count of leading zeros of a `u32` value: `u32::leading_zeros`. -/
def clz32 (u : Nat) : Nat := 32 - u.size

/-- The `w` consecutive table entries `build_v_table_block` populates for
one symbol of weight `w > 0` (src/src/fse/decoder.rs lines 258-281): the
first `x` entries use `k` bits, the remaining `w - x` use `k - 1` bits. -/
def vSegment (nStates : Nat) (offset : Int) (w vBits vBase : Nat) : List VEntry :=
  if w = 0 then []
  else
    let k := clz32 w - clz32 nStates
    let x := nStates * 2 / 2 ^ k - w
    ((List.range x).map fun j =>
      ⟨k, vBits, ((w : Int) + j) * 2 ^ k - nStates + offset, vBase⟩) ++
    ((List.range (w - x)).map fun j =>
      ⟨k - 1, vBits, (j : Int) * 2 ^ (k - 1) + offset, vBase⟩)

/-- The populated prefix of a v-table block: symbols in order, each
contributing its `vSegment` (the source writes them back to back at
positions `total..total + w`). -/
def vBody (nStates : Nat) (offset : Int) : List Nat → List Nat → List Nat → List VEntry
  | w :: ws, b :: bs, v :: vs => vSegment nStates offset w b v ++ vBody nStates offset ws bs vs
  | _, _, _ => []

/-- `build_v_table_block` (src/src/fse/decoder.rs lines 244-292): populate
the weighted entries, then configure every remaining entry as a latch that
locks in the invalid state (`k = 0`, `v_bits = 0`,
`delta = offset + position`, `v_base = 0`) and consumes no input bits. -/
def buildVTableBlock (weights vBitsTab vBaseTab : List Nat) (nStates : Nat)
    (offset : Int) : List VEntry :=
  let body := vBody nStates offset weights vBitsTab vBaseTab
  body ++ (List.range (nStates - body.length)).map fun j =>
    ⟨0, 0, offset + (body.length : Int) + j, 0⟩

/-- The `w` consecutive table entries `build_u_table` populates for symbol
`i` of weight `w > 0` (src/src/fse/decoder.rs lines 305-325). -/
def uSegment (nStates i w : Nat) : List UEntry :=
  if w = 0 then []
  else
    let k := clz32 w - clz32 nStates
    let x := nStates * 2 / 2 ^ k - w
    ((List.range x).map fun j =>
      ⟨k, i, ((w : Int) + j) * 2 ^ k - nStates⟩) ++
    ((List.range (w - x)).map fun j =>
      ⟨k - 1, i, (j : Int) * 2 ^ (k - 1)⟩)

/-- The populated prefix of the u-table, symbol index threaded through. -/
def uBody (nStates : Nat) (i : Nat) : List Nat → List UEntry
  | [] => []
  | w :: ws => uSegment nStates i w ++ uBody nStates (i + 1) ws

/-- `build_u_table` (src/src/fse/decoder.rs lines 299-335): populate the
weighted entries, then configure every remaining entry as a latch
(`k = 0`, `symbol = 0`, `delta = position`). -/
def buildUTable (weights : List Nat) (nStates : Nat) : List UEntry :=
  let body := uBody nStates 0 weights
  body ++ (List.range (nStates - body.length)).map fun j =>
    ⟨0, 0, (body.length : Int) + j⟩

/-- The decoded L/M/D triple `LmdPack` in its FSE form
(src/src/lmd/lmd_pack.rs): literal length, match length, zeroed match
distance, as produced by `Lmds::load` line 52. -/
structure LmdPack where
  l : Nat
  m : Nat
  d : Nat
  deriving DecidableEq, Repr, Inhabited

/-- Modelled from the spec: `fse/block.rs` (struct `LmdParam`) is absent
from `src/`. Per spec section 6 it carries the LMD sub-stream parameters:
symbol count `n_matches`, bit offset `lmd_bits` (stored as the
non-negative offset in `[0,7]` handed to `BitReader::new`), and the three
starting decoder states (validated `< L_STATES`/`M_STATES`/`D_STATES`). -/
structure LmdParam where
  num : Nat
  bits : Nat
  state0 : Nat
  state1 : Nat
  state2 : Nat
  deriving DecidableEq, Repr

/-- The LMD staging buffer `Lmds` (src/src/fse/lmds.rs line 17): a boxed
slice plus the element count returned by `len()`. -/
structure Lmds where
  buf : List LmdPack
  len : Nat
  deriving DecidableEq, Repr

/-- One iteration of the `Lmds::load` decode loop (src/src/fse/lmds.rs
lines 40-53) on a 64-bit target: decode L, M, D against the current
states, flush once after the triple, append the decoded pack. -/
def lmdsLoadStep (vt : List VEntry) :
    Bits.BitReader × (Int × Int × Int) × List LmdPack →
    Bits.BitReader × (Int × Int × Int) × List LmdPack :=
  fun s =>
    let r := s.1
    let st := s.2.1
    let acc := s.2.2
    let dl := VEntry.decode (vt.getD st.1.toNat default) r
    let dm := VEntry.decode (vt.getD st.2.1.toNat default) dl.2.2
    let dd := VEntry.decode (vt.getD st.2.2.toNat default) dm.2.2
    (dd.2.2.flush, (dl.1, dm.1, dd.1), acc ++ [⟨dl.2.1, dm.2.1, dd.2.1⟩])

/-- `Lmds::load` (src/src/fse/lmds.rs lines 27-60): build the bit reader,
seed the three states from the header (absolute table indices: L at
offset 0, M at `L_STATES`, D at `L_STATES + M_STATES`), decode
`param.num()` triples, finalize the reader, and require the final states
to equal the canonical start states `(0, 64, 128)`, reporting
`BadLmdPayload` otherwise. Only on success is the element count set. The
pair returned is (result, container after the call). -/
def Lmds.load (self : Lmds) (src : List Nat) (vt : List VEntry) (p : LmdParam) :
    Except Error Unit × Lmds :=
  match Bits.BitReader.new src p.bits with
  | .error e => (.error e, self)
  | .ok reader =>
    let n := p.num
    let start : Bits.BitReader × (Int × Int × Int) × List LmdPack :=
      (reader, ((p.state0 : Int), (64 + (p.state1 : Int), 128 + (p.state2 : Int))), [])
    let fin := (List.range n).foldl (fun s _ => lmdsLoadStep vt s) start
    let self2 : Lmds := { self with buf := fin.2.2 ++ self.buf.drop n }
    match fin.1.finalize with
    | .error e => (.error e, self2)
    | .ok _ =>
      if fin.2.1 = (0, (64, 128)) then (.ok (), { self2 with len := n })
      else (.error .badLmdPayload, self2)

/-- Modelled from the spec: `fse/block.rs` (struct `LiteralParam`) is
absent from `src/`. Per spec section 6 it carries `n_literals` (a multiple
of 4), `literal_bits` (stored as the offset in `[0,7]`), and the four
starting literal decoder states (validated `< U_STATES`). -/
structure LiteralParam where
  num : Nat
  bits : Nat
  state0 : Nat
  state1 : Nat
  state2 : Nat
  state3 : Nat
  deriving DecidableEq, Repr

/-- The literal staging buffer `Literals` (src/src/fse/literals.rs line
19): a boxed byte slice plus the count returned by `len()`. -/
structure Literals where
  buf : List Nat
  len : Nat
  deriving DecidableEq, Repr

/-- One iteration of the `Literals::load` decode loop
(src/src/fse/literals.rs lines 65-79) on a 64-bit target: four round-robin
literal decodes, one flush, four bytes appended. -/
def literalsLoadStep (ut : List UEntry) :
    Bits.BitReader × (Int × Int × Int × Int) × List Nat →
    Bits.BitReader × (Int × Int × Int × Int) × List Nat :=
  fun s =>
    let r := s.1
    let st := s.2.1
    let acc := s.2.2
    let d0 := UEntry.decode (ut.getD st.1.toNat default) r
    let d1 := UEntry.decode (ut.getD st.2.1.toNat default) d0.2.2
    let d2 := UEntry.decode (ut.getD st.2.2.1.toNat default) d1.2.2
    let d3 := UEntry.decode (ut.getD st.2.2.2.toNat default) d2.2.2
    (d3.2.2.flush, (d0.1, d1.1, d2.1, d3.1), acc ++ [d0.2.1, d1.2.1, d2.2.1, d3.2.1])

/-- `Literals::load` (src/src/fse/literals.rs lines 49-93): build the bit
reader, seed the four states from the header, decode `param.num()` bytes
four at a time (`LiteralParam` guarantees the count is a multiple of 4),
finalize the reader, and require the final states to equal the canonical
start states `(0, 0, 0, 0)` — the source reports `Error::BadLmdPayload`
there (line 89). Only on success is the count set. -/
def Literals.load (self : Literals) (src : List Nat) (ut : List UEntry)
    (p : LiteralParam) : Except Error Unit × Literals :=
  match Bits.BitReader.new src p.bits with
  | .error e => (.error e, self)
  | .ok reader =>
    let n := p.num
    let start : Bits.BitReader × (Int × Int × Int × Int) × List Nat :=
      (reader, ((p.state0 : Int), ((p.state1 : Int), ((p.state2 : Int), (p.state3 : Int)))), [])
    let fin := (List.range (n / 4)).foldl (fun s _ => literalsLoadStep ut s) start
    let self2 : Literals := { self with buf := fin.2.2 ++ self.buf.drop n }
    match fin.1.finalize with
    | .error e => (.error e, self2)
    | .ok _ =>
      if fin.2.1 = (0, (0, (0, 0))) then (.ok (), { self2 with len := n })
      else (.error .badLmdPayload, self2)

end Fse

namespace Encode

/-- `GOOD_MATCH_LEN` (src/src/encode/constants.rs line 3). -/
def GOOD_MATCH_LEN : Nat := 0x28

/-- `RAW_CUTOFF` (src/src/encode/constants.rs line 5). -/
def RAW_CUTOFF : Nat := 0x14

/-- `RAW_LIMIT` (src/src/encode/constants.rs line 8). -/
def RAW_LIMIT : Nat := 0x4000

/-- `VN_CUTOFF` (src/src/encode/constants.rs line 10). -/
def VN_CUTOFF : Nat := 0x1000

/-- The match object `Match` (src/src/encode/match_object.rs lines 3-8).
Modelled from the spec: the crate's `types::Idx` (absent from `src/`) is a
32-bit position whose wrap the spec declares unambiguous within the live
window, so positions are carried as plain naturals. A `match_len` of zero
means "no match". -/
structure Match where
  idx : Nat
  matchIdx : Nat
  matchLen : Nat
  deriving DecidableEq, Repr, Inhabited

/-- `Match::select::<T>` (src/src/encode/match_object.rs lines 12-33),
returning (the match selected for emission, the updated pending match).
`self` is the pending match, `incoming` the newly found one. -/
def Match.select (T : Nat) (self incoming : Match) : Option Match × Match :=
  if incoming.matchLen = 0 then
    (none, self)
  else if T ≤ incoming.matchLen then
    (some incoming, { self with matchLen := 0 })
  else if self.matchLen = 0 then
    (none, incoming)
  else if self.idx + self.matchLen ≤ incoming.idx then
    (some self, incoming)
  else if self.matchLen < incoming.matchLen then
    (some incoming, { self with matchLen := 0 })
  else
    (some self, { self with matchLen := 0 })

/-- Claim C6 as written, final case read literally: when the ranges
overlap, "keep the longer of the two" — the longer match is retained as
the pending match and nothing is emitted (the same sense in which the
first case "keeps" `pending`). This definition follows the claim's words
and is compared against the source `Match.select`. -/
def Match.selectClaimed (T : Nat) (self incoming : Match) : Option Match × Match :=
  if incoming.matchLen = 0 then
    (none, self)
  else if T ≤ incoming.matchLen then
    (some incoming, { self with matchLen := 0 })
  else if self.matchLen = 0 then
    (none, incoming)
  else if self.idx + self.matchLen ≤ incoming.idx then
    (some self, incoming)
  else
    (none, if self.matchLen < incoming.matchLen then incoming else self)

/-- Claim C6 amended in its final case: when the ranges overlap, the
longer of the two (the pending match on ties) is emitted and the pending
match is cleared. This definition follows the amended claim's words. -/
def Match.selectAmended (T : Nat) (self incoming : Match) : Option Match × Match :=
  if incoming.matchLen = 0 then
    (none, self)
  else if T ≤ incoming.matchLen then
    (some incoming, { self with matchLen := 0 })
  else if self.matchLen = 0 then
    (none, incoming)
  else if self.idx + self.matchLen ≤ incoming.idx then
    (some self, incoming)
  else
    (some (if self.matchLen < incoming.matchLen then incoming else self),
      { self with matchLen := 0 })

/-- Little-endian `u32` serialization, as used by the block headers
(spec section 6; the crate writes all integers little-endian). -/
def u32le (n : Nat) : List Nat :=
  [n % 256, n / 256 % 256, n / 2 ^ 16 % 256, n / 2 ^ 24 % 256]

/-- Modelled from the spec: `base::MagicBytes` is absent from `src/`;
the raw block magic is `bvx-` = little-endian `0x2D78_7662`
(spec section 3). -/
def magicRaw : List Nat := [0x62, 0x76, 0x78, 0x2D]

/-- Modelled from the spec: the end-of-stream magic `bvx$` = little-endian
`0x2478_7662` (spec section 3). -/
def magicEos : List Nat := [0x62, 0x76, 0x78, 0x24]

/-- Modelled from the spec: `raw::RAW_HEADER_SIZE` is absent from `src/`;
a raw block header is the 4-byte magic plus the 4-byte `n_raw_bytes`
count (spec section 6), 8 bytes. -/
def RAW_HEADER_SIZE : Nat := 8

/-- Modelled from the spec: `raw::raw_compress` is absent from `src/`;
per spec section 6 it appends `"bvx-" u32:n_raw_bytes byte[n_raw_bytes]`
to the destination. -/
def rawCompress (dst src : List Nat) : List Nat :=
  dst ++ magicRaw ++ u32le src.length ++ src

/-- `FrontendBytes::flush_backend` (src/src/encode/frontend_bytes.rs lines
79-101), destination modelled as a byte list (the `Vec<u8>` writer the
cited tests use, whose `truncate` always succeeds). `out` is the byte
sequence the chosen backend appends between `mark` and the fallback
check; `vn` is the `VN` const generic. When `vn` is set, the source falls
back to a raw block exactly when `src_len < RAW_LIMIT` and
`src_len + RAW_HEADER_SIZE ≤ dst.pos() - mark`. -/
def flushBackend (out : List Nat) (vn : Bool) (src dst : List Nat) : List Nat :=
  let dst2 := dst ++ out
  if vn = true ∧ src.length < RAW_LIMIT then
    if src.length + RAW_HEADER_SIZE ≤ out.length then rawCompress dst src else dst2
  else dst2

/-- `FrontendBytes::flush_select` (src/src/encode/frontend_bytes.rs lines
63-77): FSE above `VN_CUTOFF`, VN above `RAW_CUTOFF`, raw otherwise.
`fseOut` and `vnOut` stand for the bytes the respective backend pipeline
would append for this input. -/
def flushSelect (fseOut vnOut : List Nat) (src dst : List Nat) : List Nat :=
  if VN_CUTOFF < src.length then
    flushBackend fseOut false src dst
  else if RAW_CUTOFF < src.length then
    flushBackend vnOut true src dst
  else
    rawCompress dst src

/-- `FrontendBytes::flush` (src/src/encode/frontend_bytes.rs lines 50-61):
select and emit the block, then append the end-of-stream magic. -/
def flushBytes (fseOut vnOut : List Nat) (src dst : List Nat) : List Nat :=
  flushSelect fseOut vnOut src dst ++ magicEos

/-- The cursor projection of `FrontendRing` (src/src/encode/frontend_ring.rs
lines 30-42): head `H`, literal cursor `L`, match cursor `I`, tail `T`,
fill mark `U`. Modelled from the spec: the crate's `types::Idx` (absent
from `src/`) wraps modulo 2^32 with unambiguous deltas inside the live
window, so cursors are carried as plain naturals. -/
structure FRState where
  head : Nat
  litIdx : Nat
  idx : Nat
  tail : Nat
  mark : Nat
  deriving DecidableEq, Repr

/-- `FrontendRing::validate_global` (src/src/encode/frontend_ring.rs lines
653-660), the invariant claim C9 asserts:
`H ≤ L ≤ I ≤ T ≤ U ≤ H + RING_SIZE` and `U % RING_BLK_SIZE = 0`. -/
def validateGlobal (SIZE BLK : Nat) (s : FRState) : Prop :=
  s.head ≤ s.litIdx ∧ s.litIdx ≤ s.idx ∧ s.idx ≤ s.tail ∧ s.tail ≤ s.mark ∧
    s.mark ≤ s.head + SIZE ∧ s.mark % BLK = 0

/-- The part of `validate_global` that survives the terminal flush
operations: everything except `L ≤ I` (weakened to `L ≤ T` and
`H ≤ I`). -/
def invWeak (SIZE BLK : Nat) (s : FRState) : Prop :=
  s.head ≤ s.litIdx ∧ s.litIdx ≤ s.tail ∧ s.head ≤ s.idx ∧ s.idx ≤ s.tail ∧
    s.tail ≤ s.mark ∧ s.mark ≤ s.head + SIZE ∧ s.mark % BLK = 0

/-- One iteration of the `match_long` / `match_short` hot loops
(src/src/encode/frontend_ring.rs lines 367-394 and 413-447), projected to
the cursor pair (working index, literal cursor). `target` is the bound
the loop runs the working index to (`self.idx`, set before the loop);
`skip` is the no-emission branch; `emit` is the `push_match` branch: the
emitted match `m` satisfies the cursor half of `validate_match` (lines
662-669: `literal_idx ≤ m.idx`, `m.idx + m.match_len ≤ tail`,
`m.match_len ≠ 0`), the literal cursor advances to `m.idx + m.match_len`
(line 533) and the working index catches up to it through the history
re-sync loop. -/
inductive FRLoopStep (tail target : Nat) : Nat × Nat → Nat × Nat → Prop where
  | skip (i l : Nat) :
      i < target →
      FRLoopStep tail target (i, l) (i + 1, l)
  | emit (i l : Nat) (m : Match) :
      i < target →
      l ≤ m.idx →
      m.idx + m.matchLen ≤ tail →
      0 < m.matchLen →
      FRLoopStep tail target (i, l) (max (i + 1) (m.idx + m.matchLen), m.idx + m.matchLen)

/-- A complete run of the hot loop: reflexive-transitive closure of its
iterations. On exit the source sets `self.idx` to the larger of `target`
and the final working index (break paths, lines 382-385, 422-427,
435-439). -/
def FRLoopRun (tail target : Nat) : Nat × Nat → Nat × Nat → Prop :=
  Relation.ReflTransGen (FRLoopStep tail target)

/-- The cursor effect of the non-terminal `FrontendRing` operations.
Constructors:
* `write` — `write_block` (lines 187-206): copy up to `mark - tail` bytes
  in at the tail.
* `copy` — `copy_block` (lines 154-164): read one block of up to
  `RING_BLK_SIZE` bytes at the (block-aligned) tail; at its call sites the
  mark sits exactly one block above the tail.
* `bump` — `match_block`, early branch (lines 214-219): when the window is
  not yet full, advance the mark one block.
* `full` — `match_block`, full branch (lines 220-226): run `match_long`
  to `target = H + RING_SIZE/2 + RING_BLK_SIZE` (line 366), advance the
  head by the block-rounded overshoot (`reposition_head`, lines 250-254),
  push any literals the head passed (`push_literal_overflow`, lines
  257-272), and set the mark one block above the tail (line 225). -/
inductive FRStep (SIZE BLK : Nat) : FRState → FRState → Prop where
  | write (h l i t u n : Nat) :
      t + n ≤ u →
      FRStep SIZE BLK ⟨h, l, i, t, u⟩ ⟨h, l, i, t + n, u⟩
  | copy (h l i t u n : Nat) :
      n ≤ BLK →
      t % BLK = 0 →
      t + BLK = u →
      FRStep SIZE BLK ⟨h, l, i, t, u⟩ ⟨h, l, i, t + n, u⟩
  | bump (h l i u : Nat) :
      u ≠ h + SIZE →
      FRStep SIZE BLK ⟨h, l, i, u, u⟩ ⟨h, l, i, u, u + BLK⟩
  | full (h l i p q : Nat) :
      i < h + SIZE / 2 + BLK →
      FRLoopRun (h + SIZE) (h + SIZE / 2 + BLK) (i, l) (p, q) →
      FRStep SIZE BLK ⟨h, l, i, h + SIZE, h + SIZE⟩
        ⟨h + (max (h + SIZE / 2 + BLK) p - h - SIZE / 2) / BLK * BLK,
          max q (h + (max (h + SIZE / 2 + BLK) p - h - SIZE / 2) / BLK * BLK),
          max (h + SIZE / 2 + BLK) p,
          h + SIZE,
          h + SIZE + BLK⟩

/-- The cursor effect of the terminal flush operations
(`FrontendRing::flush`, lines 275-295, and its callees). Constructors:
* `shortSmall` — `match_short` with fewer than 4 bytes left (lines
  407-410): no cursor movement.
* `shortRun` — `match_short` (lines 401-450): run the hot loop to
  `target = T - MATCH_UNIT + 1` (line 412).
* `pendingFlush` — `flush_pending` (lines 510-520): emit the pending
  match, which satisfies the cursor half of `validate_match`.
* `literalsFlush` — `flush_literals` (lines 538-548): push the remaining
  literals, leaving `L = T`.
* `rawFlush` — `flush_raw` (lines 334-342): raw-compress the window and
  set `L = T` (line 340). -/
inductive FRFlushStep (SIZE BLK MU : Nat) : FRState → FRState → Prop where
  | shortSmall (h l i t u : Nat) :
      t < h + SIZE →
      t - i < 4 →
      FRFlushStep SIZE BLK MU ⟨h, l, i, t, u⟩ ⟨h, l, i, t, u⟩
  | shortRun (h l i t u p q : Nat) :
      t < h + SIZE →
      4 ≤ t - i →
      FRLoopRun t (t - MU + 1) (i, l) (p, q) →
      FRFlushStep SIZE BLK MU ⟨h, l, i, t, u⟩ ⟨h, q, max (t - MU + 1) p, t, u⟩
  | pendingFlush (h l i t u : Nat) (m : Match) :
      l ≤ m.idx →
      m.idx + m.matchLen ≤ t →
      0 < m.matchLen →
      FRFlushStep SIZE BLK MU ⟨h, l, i, t, u⟩ ⟨h, m.idx + m.matchLen, i, t, u⟩
  | literalsFlush (h l i t u : Nat) :
      FRFlushStep SIZE BLK MU ⟨h, l, i, t, u⟩ ⟨h, t, i, t, u⟩
  | rawFlush (h l i t u : Nat) :
      FRFlushStep SIZE BLK MU ⟨h, l, i, t, u⟩ ⟨h, t, i, t, u⟩

/-- The state `FrontendRing::init` establishes (src/src/encode/
frontend_ring.rs lines 564-575): all cursors at zero, the mark one block
up. -/
def frInit (BLK : Nat) : FRState := ⟨0, 0, 0, 0, BLK⟩

/-- States reachable from `init` through the non-terminal operations. -/
inductive ReachCore (SIZE BLK : Nat) : FRState → Prop where
  | init : ReachCore SIZE BLK (frInit BLK)
  | step (s s' : FRState) :
      ReachCore SIZE BLK s → FRStep SIZE BLK s s' → ReachCore SIZE BLK s'

/-- States reachable from `init` through the non-terminal operations
followed by any suffix of terminal flush operations. -/
def ReachAll (SIZE BLK MU : Nat) (s2 : FRState) : Prop :=
  ∃ s1, ReachCore SIZE BLK s1 ∧
    Relation.ReflTransGen (FRFlushStep SIZE BLK MU) s1 s2

end Encode

/-!
Theorems. Helper lemmas come first, then for each claim its theorem and,
where required, witness and counterexample.
-/

namespace Bits

/-- Flushing preserves the reader's accounting sum
`accum_bits + index * 8`: the index drops by exactly the bytes whose bits
are added to the accumulator. -/
theorem BitReader.flush_sum (r : BitReader) :
    r.flush.accumBits + r.flush.index * 8 = r.accumBits + r.index * 8 := by
  simp only [BitReader.flush]
  push_cast
  ring

/-- Pulling `n` bits lowers the accounting sum by exactly `n`. -/
theorem BitReader.pull_sum (r : BitReader) (n : Nat) :
    (r.pull n).2.accumBits + (r.pull n).2.index * 8 =
      r.accumBits + r.index * 8 - n := by
  simp only [BitReader.pull]
  ring

/-- Running any operation sequence lowers the accounting sum by exactly
the total number of bits pulled. -/
theorem runOps_sum (ops : List Op) (r : BitReader) :
    (runOps ops r).accumBits + (runOps ops r).index * 8 =
      r.accumBits + r.index * 8 - pulledBits ops := by
  induction ops generalizing r with
  | nil => simp [runOps, pulledBits]
  | cons op ops ih =>
    cases op with
    | flushOp =>
      have h : runOps (Op.flushOp :: ops) r = runOps ops r.flush := rfl
      rw [h, ih, BitReader.flush_sum, pulledBits]
    | pullOp n =>
      have h : runOps (Op.pullOp n :: ops) r = runOps ops (r.pull n).2 := rfl
      rw [h, ih, BitReader.pull_sum, pulledBits]
      push_cast
      ring

/-- Finalize fails exactly when the accounting sum has dropped below the
64 pad bits. -/
theorem BitReader.finalize_error_iff (r : BitReader) :
    r.finalize = .error .payloadUnderflow ↔
      r.flush.accumBits + r.flush.index * 8 < 64 := by
  simp only [BitReader.finalize]
  split <;> simp_all

end Bits

/-- Claim C7, corrected. For every operation sequence run against a
freshly constructed `BitReader`, `finalize` fails — with
`PayloadUnderflow` — if and only if the consumer over-pulled: the total
bits pulled exceed the bits the stream supplies
(`8 * (len - 8) - off`). Under-pulling is not detected by `finalize`. -/
theorem claimC7_finalize_fails_iff_overpulled
    (src : List Nat) (off : Nat) (r : Bits.BitReader) (ops : List Bits.Op)
    (hnew : Bits.BitReader.new src off = .ok r) :
    ((Bits.runOps ops r).finalize = .error .payloadUnderflow ↔
      Bits.suppliedBits src.length off < Bits.pulledBits ops) := by
  have hfields : r.accumBits = 64 - (off : Int) ∧ r.index = (src.length : Int) - 8 := by
    simp only [Bits.BitReader.new] at hnew
    split at hnew
    · exact absurd hnew (by simp)
    · cases hnew
      exact ⟨rfl, rfl⟩
  rw [Bits.BitReader.finalize_error_iff, Bits.BitReader.flush_sum, Bits.runOps_sum,
    hfields.1, hfields.2, Bits.suppliedBits]
  omega

/-- Witness for C7: nine source bytes at offset zero supply 8 payload
bits; pulling exactly 8 bits is not an over-pull and `finalize`
succeeds. -/
theorem claimC7_witness :
    ((Bits.runOps [Bits.Op.pullOp 8] ⟨0, 64, 1, List.replicate 9 0⟩).finalize =
        .error .payloadUnderflow ↔
      Bits.suppliedBits (List.replicate 9 (0 : Nat)).length 0 <
        Bits.pulledBits [Bits.Op.pullOp 8]) :=
  claimC7_finalize_fails_iff_overpulled (List.replicate 9 0) 0
    ⟨0, 64, 1, List.replicate 9 0⟩ [Bits.Op.pullOp 8] rfl

/-- Counterexample to C7 as stated: with nine source bytes at offset zero
the stream supplies 8 bits; a consumer that pulls nothing has
under-pulled (0 ≠ 8), yet `finalize` succeeds. So "finalize fails iff the
bits pulled differ from the bits expected" is false on the code. -/
theorem claimC7_counterexample :
    ¬ ((Bits.runOps [] ⟨0, 64, 1, List.replicate 9 0⟩).finalize =
          .error .payloadUnderflow ↔
        (Bits.pulledBits [] : Int) ≠
          Bits.suppliedBits (List.replicate 9 (0 : Nat)).length 0) := by
  intro h
  have hok : (Bits.runOps [] ⟨0, 64, 1, List.replicate 9 0⟩).finalize = .ok () := rfl
  have hne : (Bits.pulledBits [] : Int) ≠
      Bits.suppliedBits (List.replicate 9 (0 : Nat)).length 0 := by
    simp [Bits.pulledBits, Bits.suppliedBits]
  have := h.mpr hne
  rw [hok] at this
  exact Except.noConfusion this

/-- Claim C6, amended in its final case. `Match::select::<T>` behaves as
specified case by case, except that when the pending and incoming matches
overlap, the longer of the two (the pending match on ties) is emitted and
the pending match is cleared — it is not retained as pending. -/
theorem claimC6_select_cases (T : Nat) (s i : Encode.Match) :
    Encode.Match.select T s i = Encode.Match.selectAmended T s i := by
  unfold Encode.Match.select Encode.Match.selectAmended
  split_ifs <;> rfl

/-- Counterexample to C6 as stated: pending `(idx 10, match_idx 2, len 6)`
overlaps incoming `(idx 12, match_idx 5, len 5)` (pending ends at 16 > 12)
and the incoming match is shorter, so the claim's final case says the
longer match is kept pending with nothing emitted; the source instead
emits the pending match and clears it. -/
theorem claimC6_counterexample :
    Encode.Match.select Encode.GOOD_MATCH_LEN ⟨10, 2, 6⟩ ⟨12, 5, 5⟩ ≠
      Encode.Match.selectClaimed Encode.GOOD_MATCH_LEN ⟨10, 2, 6⟩ ⟨12, 5, 5⟩ := by
  decide

/-- Claim C3, confirmed against `flush_select` / `flush_backend` with the
byte-vector writer (whose `truncate` succeeds): inputs of length at most
`RAW_CUTOFF = 20` become a raw block; lengths in `(20, 4096]` try the VN
backend and fall back to a raw block exactly when the VN block is not
strictly shorter than the raw block (`src_len + RAW_HEADER_SIZE` bytes)
would be; lengths above `VN_CUTOFF = 4096` use the FSE backend with no
raw fallback, whatever its output size. -/
theorem claimC3_mode_selection (fseOut vnOut src dst : List Nat) :
    (src.length ≤ Encode.RAW_CUTOFF →
      Encode.flushSelect fseOut vnOut src dst = Encode.rawCompress dst src) ∧
    (Encode.RAW_CUTOFF < src.length → src.length ≤ Encode.VN_CUTOFF →
      (src.length + Encode.RAW_HEADER_SIZE ≤ vnOut.length →
        Encode.flushSelect fseOut vnOut src dst = Encode.rawCompress dst src) ∧
      (vnOut.length < src.length + Encode.RAW_HEADER_SIZE →
        Encode.flushSelect fseOut vnOut src dst = dst ++ vnOut)) ∧
    (Encode.VN_CUTOFF < src.length →
      Encode.flushSelect fseOut vnOut src dst = dst ++ fseOut) := by
  simp only [Encode.flushSelect, Encode.flushBackend, Encode.RAW_CUTOFF,
    Encode.VN_CUTOFF, Encode.RAW_LIMIT, Encode.RAW_HEADER_SIZE,
    eq_self_iff_true, true_and, Bool.false_eq_true, false_and, if_false]
  refine ⟨fun h => ?_, fun h1 h2 => ⟨fun h3 => ?_, fun h3 => ?_⟩, fun h => ?_⟩ <;>
    split_ifs <;> first | rfl | omega

/-- Witness for C3: twenty-one zero bytes with a hypothetical 29-byte VN
block (not shorter than the 29-byte raw block) fall back to raw. -/
theorem claimC3_witness :
    Encode.flushSelect [] (List.replicate 29 7) (List.replicate 21 0) [] =
      Encode.rawCompress [] (List.replicate 21 0) :=
  ((claimC3_mode_selection [] (List.replicate 29 7) (List.replicate 21 0) []).2.1
    (by simp [Encode.RAW_CUTOFF]) (by simp [Encode.VN_CUTOFF])).1
    (by simp [Encode.RAW_HEADER_SIZE])

namespace Fse

/-- The element count after `Lmds::load`: the header's declared count on
success, the previous count on any error. -/
theorem lmds_load_len (lm : Lmds) (src : List Nat) (vt : List VEntry)
    (p : LmdParam) :
    ((Lmds.load lm src vt p).1 = .ok () ∧ (Lmds.load lm src vt p).2.len = p.num) ∨
      ((∃ e, (Lmds.load lm src vt p).1 = .error e) ∧
        (Lmds.load lm src vt p).2.len = lm.len) := by
  simp only [Lmds.load]
  split
  · exact .inr ⟨⟨_, rfl⟩, rfl⟩
  · split
    · exact .inr ⟨⟨_, rfl⟩, rfl⟩
    · split
      · exact .inl ⟨rfl, rfl⟩
      · exact .inr ⟨⟨_, rfl⟩, rfl⟩

/-- The element count after `Literals::load`: the header's declared count
on success, the previous count on any error. -/
theorem literals_load_len (lt : Literals) (src : List Nat) (ut : List UEntry)
    (p : LiteralParam) :
    ((Literals.load lt src ut p).1 = .ok () ∧
        (Literals.load lt src ut p).2.len = p.num) ∨
      ((∃ e, (Literals.load lt src ut p).1 = .error e) ∧
        (Literals.load lt src ut p).2.len = lt.len) := by
  simp only [Literals.load]
  split
  · exact .inr ⟨⟨_, rfl⟩, rfl⟩
  · split
    · exact .inr ⟨⟨_, rfl⟩, rfl⟩
    · split
      · exact .inl ⟨rfl, rfl⟩
      · exact .inr ⟨⟨_, rfl⟩, rfl⟩

end Fse

/-- Claim C10, confirmed. Whenever `Lmds::load` or `Literals::load`
returns an error — a bad bit stream, a payload underflow, or a non-zero
final decoder state — the container's recorded element count (`len()`) is
unchanged; the count becomes the header's declared number exactly when
the load succeeds. -/
theorem claimC10_load_preserves_len (lm : Fse.Lmds) (src : List Nat)
    (vt : List Fse.VEntry) (p : Fse.LmdParam) (lt : Fse.Literals)
    (src2 : List Nat) (ut : List Fse.UEntry) (q : Fse.LiteralParam) :
    (∀ e, (Fse.Lmds.load lm src vt p).1 = .error e →
      (Fse.Lmds.load lm src vt p).2.len = lm.len) ∧
    ((Fse.Lmds.load lm src vt p).1 = .ok () →
      (Fse.Lmds.load lm src vt p).2.len = p.num) ∧
    (∀ e, (Fse.Literals.load lt src2 ut q).1 = .error e →
      (Fse.Literals.load lt src2 ut q).2.len = lt.len) ∧
    ((Fse.Literals.load lt src2 ut q).1 = .ok () →
      (Fse.Literals.load lt src2 ut q).2.len = q.num) := by
  refine ⟨fun e h => ?_, fun h => ?_, fun e h => ?_, fun h => ?_⟩
  · rcases Fse.lmds_load_len lm src vt p with ⟨hok, _⟩ | ⟨_, hlen⟩
    · rw [h] at hok
      exact Except.noConfusion hok
    · exact hlen
  · rcases Fse.lmds_load_len lm src vt p with ⟨_, hlen⟩ | ⟨⟨e, herr⟩, _⟩
    · exact hlen
    · rw [h] at herr
      exact Except.noConfusion herr
  · rcases Fse.literals_load_len lt src2 ut q with ⟨hok, _⟩ | ⟨_, hlen⟩
    · rw [h] at hok
      exact Except.noConfusion hok
    · exact hlen
  · rcases Fse.literals_load_len lt src2 ut q with ⟨_, hlen⟩ | ⟨⟨e, herr⟩, _⟩
    · exact hlen
    · rw [h] at herr
      exact Except.noConfusion herr

/-- Witness for C10: a load whose final LMD states are not the canonical
start states fails, and the recorded count stays at its prior value 3. -/
theorem claimC10_witness :
    (Fse.Lmds.load ⟨[], 3⟩ (List.replicate 8 0) [] ⟨2, 0, 1, 0, 0⟩).2.len = 3 :=
  (claimC10_load_preserves_len ⟨[], 3⟩ (List.replicate 8 0) [] ⟨2, 0, 1, 0, 0⟩
      ⟨[], 0⟩ [] [] ⟨0, 0, 0, 0, 0, 0⟩).1 .badLmdPayload rfl

/-- Claim C4, code bug. The termination check itself is present in both
loaders: after decoding the declared number of symbols the decoder states
must equal the canonical start states or the load fails. The LMD loader
reports `BadLmdPayload` as claimed, but the literal loader also reports
`BadLmdPayload` (src/src/fse/literals.rs line 89) where the claim — and
the crate's own error vocabulary, which reserves `BadLiteralState` for
the literal stream — says `BadLiteralState`. Evaluation at a failing
input: a literal payload of eight zero bytes, zero literals declared, and
header states `[1, 0, 0, 0]` (final states non-zero) is rejected with
`BadLmdPayload`, not `BadLiteralState`. -/
theorem claimC4_literal_state_error_variant :
    (Fse.Literals.load ⟨[], 7⟩ (List.replicate 8 0) []
        ⟨0, 0, 1, 0, 0, 0⟩).1 = .error .badLmdPayload ∧
      Error.badLmdPayload ≠ Error.badLiteralState :=
  ⟨rfl, by decide⟩

namespace Fse

/-- Core table-builder arithmetic: for a nonzero weight `w ≤ nStates` with
`nStates = 2 ^ p`, the split point `x = ((nStates << 1) >> k) - w`
satisfies `x + (w - x) = w`, i.e. the two fill loops together write
exactly `w` entries. -/
theorem segment_split_eq (p w : Nat) (hp : p ≤ 30) (hw0 : w ≠ 0)
    (hw : w ≤ 2 ^ p) :
    (2 ^ p * 2 / 2 ^ (clz32 w - clz32 (2 ^ p)) - w) +
      (w - (2 ^ p * 2 / 2 ^ (clz32 w - clz32 (2 ^ p)) - w)) = w := by
  have hsz1 : 1 ≤ w.size := Nat.size_pos.mpr (Nat.pos_of_ne_zero hw0)
  have hszle : w.size ≤ p + 1 := by
    have h := Nat.size_le_size hw
    rwa [Nat.size_pow] at h
  have hk : clz32 w - clz32 (2 ^ p) = p + 1 - w.size := by
    unfold clz32
    rw [Nat.size_pow]
    omega
  rw [hk]
  have hdiv : 2 ^ p * 2 / 2 ^ (p + 1 - w.size) = 2 ^ w.size := by
    rw [← pow_succ, Nat.pow_div (by omega) (by norm_num)]
    congr 1
    omega
  rw [hdiv]
  have hlow : 2 ^ (w.size - 1) ≤ w := Nat.lt_size.mp (by omega)
  have hhigh : w < 2 ^ w.size := Nat.lt_size_self w
  have h2 : 2 ^ w.size = 2 ^ (w.size - 1) * 2 := by
    rw [← pow_succ]
    congr 1
    omega
  omega

/-- Each nonzero-weight symbol populates exactly `w` entries of the
v-table block. -/
theorem vSegment_length (p w b v : Nat) (off : Int) (hp : p ≤ 30)
    (hw : w ≤ 2 ^ p) :
    (vSegment (2 ^ p) off w b v).length = w := by
  unfold vSegment
  split
  · simp [*]
  · simp only [List.length_append, List.length_map, List.length_range]
    exact segment_split_eq p w hp (by assumption) hw

/-- Each nonzero-weight symbol populates exactly `w` entries of the
u-table. -/
theorem uSegment_length (q i w : Nat) (hq : q ≤ 30) (hw : w ≤ 2 ^ q) :
    (uSegment (2 ^ q) i w).length = w := by
  unfold uSegment
  split
  · simp [*]
  · simp only [List.length_append, List.length_map, List.length_range]
    exact segment_split_eq q w hq (by assumption) hw

/-- The populated prefix of a v-table block is exactly as long as the
weight total. -/
theorem vBody_length (p : Nat) (off : Int) (ws : List Nat) :
    ∀ bs vs : List Nat, bs.length = ws.length → vs.length = ws.length →
      (∀ w ∈ ws, w ≤ 2 ^ p) → p ≤ 30 →
      (vBody (2 ^ p) off ws bs vs).length = ws.sum := by
  induction ws with
  | nil =>
    intro bs vs _ _ _ _
    cases bs <;> cases vs <;> simp [vBody]
  | cons w ws ih =>
    intro bs vs hb hv hmem hp
    cases bs with
    | nil => simp at hb
    | cons b bs =>
      cases vs with
      | nil => simp at hv
      | cons v vs =>
        simp only [vBody, List.length_append, List.sum_cons]
        rw [vSegment_length p w b v off hp (hmem w (by simp)),
          ih bs vs (by simpa using hb) (by simpa using hv)
            (fun x hx => hmem x (by simp [hx])) hp]

/-- The populated prefix of the u-table is exactly as long as the weight
total, whatever the starting symbol index. -/
theorem uBody_length (q : Nat) (ws : List Nat) :
    ∀ i : Nat, (∀ w ∈ ws, w ≤ 2 ^ q) → q ≤ 30 →
      (uBody (2 ^ q) i ws).length = ws.sum := by
  induction ws with
  | nil => intro i _ _; simp [uBody]
  | cons w ws ih =>
    intro i hmem hq
    simp only [uBody, List.length_append, List.sum_cons]
    rw [uSegment_length q i w hq (hmem w (by simp)),
      ih (i + 1) (fun x hx => hmem x (by simp [hx])) hq]

end Fse

/-- Claim C5, confirmed. In both FSE decoder table builders every entry
at a position at or above the weight total is self-latching: the builder
writes `{k = 0, v_bits = 0, delta = offset + position}` there
(symbol 0 and `v_base = 0`), and decoding through such an entry pulls
zero bits twice — leaving the reader exactly unchanged — and returns the
state `offset + position`, the absolute index of the entry itself, so an
invalid state can never change again. Positions are stated for the
v-table block at absolute offset `off` and for the u-table (offset 0). -/
theorem claimC5_self_latching (ws bs vs : List Nat) (p : Nat) (off : Int)
    (i : Nat) (uws : List Nat) (q : Nat) (j : Nat)
    (hp : p ≤ 30) (hq : q ≤ 30)
    (hb : bs.length = ws.length) (hv : vs.length = ws.length)
    (hsum : ws.sum ≤ 2 ^ p) (hi : ws.sum ≤ i) (hip : i < 2 ^ p)
    (husum : uws.sum ≤ 2 ^ q) (hj : uws.sum ≤ j) (hjq : j < 2 ^ q) :
    (Fse.buildVTableBlock ws bs vs (2 ^ p) off)[i]? =
        some ⟨0, 0, off + i, 0⟩ ∧
      (∀ r, Fse.VEntry.decode ⟨0, 0, off + i, 0⟩ r = (off + i, 0, r)) ∧
      (Fse.buildUTable uws (2 ^ q))[j]? = some ⟨0, 0, (j : Int)⟩ ∧
      (∀ r, Fse.UEntry.decode ⟨0, 0, (j : Int)⟩ r = ((j : Int), 0, r)) := by
  have hmemv : ∀ w ∈ ws, w ≤ 2 ^ p :=
    fun w hw => le_trans (List.le_sum_of_mem hw) hsum
  have hmemu : ∀ w ∈ uws, w ≤ 2 ^ q :=
    fun w hw => le_trans (List.le_sum_of_mem hw) husum
  have hvlen := Fse.vBody_length p off ws bs vs hb hv hmemv hp
  have hulen := Fse.uBody_length q uws 0 hmemu hq
  refine ⟨?_, ?_, ?_, ?_⟩
  · unfold Fse.buildVTableBlock
    rw [List.getElem?_append_right (by omega), List.getElem?_map,
      List.getElem?_range (by omega)]
    simp only [Option.map_some']
    congr 1
    rw [hvlen]
    congr 1
    omega
  · intro r
    cases r
    simp [Fse.VEntry.decode, Bits.BitReader.pull, Bits.mask, Nat.mod_one]
  · unfold Fse.buildUTable
    rw [List.getElem?_append_right (by omega), List.getElem?_map,
      List.getElem?_range (by omega)]
    simp only [Option.map_some']
    congr 1
    rw [hulen]
    congr 1
    omega
  · intro r
    cases r
    simp [Fse.UEntry.decode, Bits.BitReader.pull, Bits.mask, Nat.mod_one]

/-- Witness for C5: with L/M/D-style weights `[2, 0, 1]` over 256 states
at block offset 128, position 10 (total 3 ≤ 10) holds the latch entry
with `delta = 138`, which decodes to state 138 without touching the
reader; likewise position 100 of a u-table with weights `[5, 3]` over
1024 states. -/
theorem claimC5_witness :
    (Fse.buildVTableBlock [2, 0, 1] [0, 0, 0] [0, 0, 0] (2 ^ 8) 128)[10]? =
        some ⟨0, 0, 128 + ((10 : Nat) : Int), 0⟩ ∧
      Fse.VEntry.decode ⟨0, 0, 128 + ((10 : Nat) : Int), 0⟩ ⟨9, 64, 1, []⟩ =
        (128 + ((10 : Nat) : Int), 0, ⟨9, 64, 1, []⟩) ∧
      (Fse.buildUTable [5, 3] (2 ^ 10))[100]? = some ⟨0, 0, ((100 : Nat) : Int)⟩ ∧
      Fse.UEntry.decode ⟨0, 0, ((100 : Nat) : Int)⟩ ⟨9, 64, 1, []⟩ =
        (((100 : Nat) : Int), 0, ⟨9, 64, 1, []⟩) := by
  obtain ⟨h1, h2, h3, h4⟩ :=
    claimC5_self_latching [2, 0, 1] [0, 0, 0] [0, 0, 0] 8 128 10 [5, 3] 10 100
      (by norm_num) (by norm_num) (by norm_num) (by norm_num) (by norm_num)
      (by norm_num) (by norm_num) (by norm_num) (by norm_num) (by norm_num)
  exact ⟨h1, h2 ⟨9, 64, 1, []⟩, h3, h4 ⟨9, 64, 1, []⟩⟩

namespace Encode

/-- Bounds of a hot-loop run: both cursors only move forward and stay at
or below the tail, provided the loop target is at or below the tail. -/
theorem frLoop_bounds (tail target : Nat) (htt : target ≤ tail)
    {a b : Nat × Nat} (h : FRLoopRun tail target a b) :
    a.2 ≤ tail → a.1 ≤ tail →
      a.2 ≤ b.2 ∧ a.1 ≤ b.1 ∧ b.2 ≤ tail ∧ b.1 ≤ tail := by
  induction h with
  | refl => exact fun h2 h1 => ⟨le_refl _, le_refl _, h2, h1⟩
  | tail hab hstep ih =>
    intro h2 h1
    obtain ⟨m1, m2, m3, m4⟩ := ih h2 h1
    cases hstep with
    | skip i l hlt =>
      refine ⟨by simpa using m1, ?_, by simpa using m3, by simp; omega⟩
      simp only [Prod.fst] at m2 ⊢
      omega
    | emit i l m hlt hle hbound hpos =>
      simp only [Prod.fst, Prod.snd] at m1 m2 m3 m4 ⊢
      refine ⟨by omega, ?_, by omega, ?_⟩ <;>
        simp only [le_max_iff, max_le_iff] <;> omega

/-- The hot loop keeps the literal cursor at or below the working
index. -/
theorem frLoop_le (tail target : Nat) {a b : Nat × Nat}
    (h : FRLoopRun tail target a b) : a.2 ≤ a.1 → b.2 ≤ b.1 := by
  induction h with
  | refl => exact id
  | tail hab hstep ih =>
    intro hle
    have hmid := ih hle
    cases hstep with
    | skip i l hlt =>
      simp only [Prod.fst, Prod.snd] at hmid ⊢
      omega
    | emit i l m hlt hle2 hbound hpos =>
      simp only [Prod.fst, Prod.snd, le_max_iff] at hmid ⊢
      omega

end Encode


namespace Encode

/-- Every non-terminal operation preserves `validate_global` together
with the block alignment of the head. -/
theorem frStep_preserves (SIZE BLK : Nat) (hB : 0 < BLK)
    (hBS : BLK * 4 ≤ SIZE) (hdvd : BLK ∣ SIZE) {s s2 : FRState}
    (hstep : FRStep SIZE BLK s s2)
    (hinv : validateGlobal SIZE BLK s ∧ BLK ∣ s.head) :
    validateGlobal SIZE BLK s2 ∧ BLK ∣ s2.head := by
  cases hstep with
  | write h l i t u n hn =>
    simp only [validateGlobal] at hinv ⊢
    obtain ⟨⟨h1, h2, h3, h4, h5, h6⟩, hd⟩ := hinv
    exact ⟨⟨h1, h2, by omega, by omega, h5, h6⟩, hd⟩
  | copy h l i t u n hn hal hblk =>
    simp only [validateGlobal] at hinv ⊢
    obtain ⟨⟨h1, h2, h3, h4, h5, h6⟩, hd⟩ := hinv
    exact ⟨⟨h1, h2, by omega, by omega, h5, h6⟩, hd⟩
  | bump h l i u hne =>
    simp only [validateGlobal] at hinv ⊢
    obtain ⟨⟨h1, h2, h3, h4, h5, h6⟩, hd⟩ := hinv
    have hu : BLK ∣ u := Nat.dvd_of_mod_eq_zero h6
    obtain ⟨a, ha⟩ := hu
    obtain ⟨b, hb⟩ := id hd
    obtain ⟨c, hc⟩ := id hdvd
    have hlt : u < h + SIZE := lt_of_le_of_ne h5 hne
    have hab : a < b + c := by
      refine Nat.lt_of_mul_lt_mul_left (a := BLK) ?_
      rw [← ha, Nat.mul_add, ← hb, ← hc]
      exact hlt
    have hle : u + BLK ≤ h + SIZE := by
      have hstep2 : BLK * (a + 1) ≤ BLK * (b + c) :=
        Nat.mul_le_mul_left BLK (by omega)
      calc u + BLK = BLK * (a + 1) := by rw [ha]; ring
        _ ≤ BLK * (b + c) := hstep2
        _ = h + SIZE := by rw [Nat.mul_add, ← hb, ← hc]
    refine ⟨⟨h1, h2, h3, by omega, hle, ?_⟩, hd⟩
    simp [Nat.add_mod, h6, Nat.mod_self]
  | full h l i p q hi hrun =>
    simp only [validateGlobal] at hinv ⊢
    obtain ⟨⟨h1, h2, h3, h4, h5, h6⟩, hd⟩ := hinv
    have htt : h + SIZE / 2 + BLK ≤ h + SIZE := by omega
    obtain ⟨m1, m2, m3, m4⟩ :=
      frLoop_bounds (h + SIZE) (h + SIZE / 2 + BLK) htt hrun
        (show l ≤ h + SIZE by omega) (show i ≤ h + SIZE by omega)
    have hql := frLoop_le (h + SIZE) (h + SIZE / 2 + BLK) hrun
      (show l ≤ i from h2)
    simp only [Prod.fst, Prod.snd] at m1 m2 m3 m4 hql
    set I1 := max (h + SIZE / 2 + BLK) p with hI1
    have hI1lo : h + SIZE / 2 + BLK ≤ I1 := le_max_left _ _
    have hI1hi : I1 ≤ h + SIZE := max_le htt m4
    set a := I1 - h - SIZE / 2 with haDef
    have haBLK : BLK ≤ a := by omega
    set D := a / BLK * BLK with hD
    have hDle : D ≤ a := Nat.div_mul_le_self a BLK
    have hDge : BLK ≤ D := by
      have h1a : 1 ≤ a / BLK := (Nat.one_le_div_iff hB).mpr haBLK
      calc BLK = 1 * BLK := (Nat.one_mul BLK).symm
        _ ≤ a / BLK * BLK := Nat.mul_le_mul_right BLK h1a
    have hDdvd : BLK ∣ D := ⟨a / BLK, by rw [hD]; ring⟩
    have hqI1 : q ≤ I1 := le_trans hql (le_max_right _ _)
    refine ⟨⟨le_max_right _ _, ?_, hI1hi, by omega, by omega, ?_⟩, ?_⟩
    · exact max_le hqI1 (by omega)
    · simp [Nat.add_mod, h6, Nat.mod_self]
    · exact Dvd.dvd.add hd hDdvd

end Encode

namespace Encode

/-- Every terminal flush operation preserves the weakened invariant
(everything of `validate_global` except `L ≤ I`). -/
theorem frFlushStep_preserves (SIZE BLK MU : Nat) (hMU1 : 1 ≤ MU)
    (hMU4 : MU ≤ 4) {s s2 : FRState} (hstep : FRFlushStep SIZE BLK MU s s2)
    (hinv : invWeak SIZE BLK s) : invWeak SIZE BLK s2 := by
  cases hstep with
  | shortSmall h l i t u hlt hsmall => exact hinv
  | shortRun h l i t u p q hlt hbig hrun =>
    simp only [invWeak] at hinv ⊢
    obtain ⟨h1, h2, h3, h4, h5, h6, h7⟩ := hinv
    have htt : t - MU + 1 ≤ t := by omega
    obtain ⟨m1, m2, m3, m4⟩ :=
      frLoop_bounds t (t - MU + 1) htt hrun
        (show l ≤ t from h2) (show i ≤ t from h4)
    simp only [Prod.fst, Prod.snd] at m1 m2 m3 m4
    refine ⟨by omega, m3, ?_, ?_, h5, h6, h7⟩
    · exact le_max_of_le_right (le_trans h3 m2)
    · exact max_le htt m4
  | pendingFlush h l i t u m hle hbound hpos =>
    simp only [invWeak] at hinv ⊢
    obtain ⟨h1, h2, h3, h4, h5, h6, h7⟩ := hinv
    exact ⟨by omega, hbound, h3, h4, h5, h6, h7⟩
  | literalsFlush h l i t u =>
    simp only [invWeak] at hinv ⊢
    obtain ⟨h1, h2, h3, h4, h5, h6, h7⟩ := hinv
    exact ⟨by omega, le_refl t, h3, h4, h5, h6, h7⟩
  | rawFlush h l i t u =>
    simp only [invWeak] at hinv ⊢
    obtain ⟨h1, h2, h3, h4, h5, h6, h7⟩ := hinv
    exact ⟨by omega, le_refl t, h3, h4, h5, h6, h7⟩

/-- The full invariant implies the weakened one. -/
theorem invWeak_of_validateGlobal (SIZE BLK : Nat) (s : FRState)
    (h : validateGlobal SIZE BLK s) : invWeak SIZE BLK s := by
  simp only [validateGlobal] at h
  simp only [invWeak]
  obtain ⟨h1, h2, h3, h4, h5, h6⟩ := h
  exact ⟨h1, by omega, by omega, by omega, h4, h5, h6⟩

/-- The initial state satisfies `validate_global` with a block-aligned
head. -/
theorem frInit_inv (SIZE BLK : Nat) (hB : 0 < BLK) (hBS : BLK * 4 ≤ SIZE) :
    validateGlobal SIZE BLK (frInit BLK) ∧ BLK ∣ (frInit BLK).head := by
  simp only [validateGlobal, frInit]
  refine ⟨⟨by omega, by omega, by omega, by omega, by omega, Nat.mod_self BLK⟩, ?_⟩
  exact Dvd.intro 0 rfl

end Encode

/-- Claim C9, corrected/amended. With the ring constants constrained as
the source constructor asserts (`0 < RING_BLK_SIZE`,
`4 * RING_BLK_SIZE ≤ RING_SIZE`, block size dividing ring size, match
unit in `[1, 4]`):
(1) every state reachable through the non-terminal frontend-ring
operations (block fill, mark bump, full-block match processing) satisfies
the claimed invariant `H ≤ L ≤ I ≤ T ≤ U ≤ H + RING_SIZE` with
`U % RING_BLK_SIZE = 0` — those operations preserve it; and
(2) the terminal flush operations (`match_short`, `flush_pending`,
`flush_literals`, `flush_raw`) preserve all of it except `L ≤ I`: in
every reachable state, including post-flush states, `H ≤ L ≤ T`,
`H ≤ I ≤ T ≤ U ≤ H + RING_SIZE` and `U % RING_BLK_SIZE = 0` still hold,
but the final flush may leave the literal cursor beyond the match
cursor. -/
theorem claimC9_ring_invariant (SIZE BLK MU : Nat) (hB : 0 < BLK)
    (hBS : BLK * 4 ≤ SIZE) (hdvd : BLK ∣ SIZE) (hMU1 : 1 ≤ MU)
    (hMU4 : MU ≤ 4) :
    (∀ s, Encode.ReachCore SIZE BLK s → Encode.validateGlobal SIZE BLK s) ∧
      (∀ s, Encode.ReachAll SIZE BLK MU s → Encode.invWeak SIZE BLK s) := by
  have hcore : ∀ s, Encode.ReachCore SIZE BLK s →
      Encode.validateGlobal SIZE BLK s ∧ BLK ∣ s.head := by
    intro s h
    induction h with
    | init => exact Encode.frInit_inv SIZE BLK hB hBS
    | step s1 s2 _ hstep ih =>
      exact Encode.frStep_preserves SIZE BLK hB hBS hdvd hstep ih
  refine ⟨fun s h => (hcore s h).1, fun s h => ?_⟩
  obtain ⟨s1, hc, hflush⟩ := h
  have hw : Encode.invWeak SIZE BLK s1 :=
    Encode.invWeak_of_validateGlobal SIZE BLK s1 (hcore s1 hc).1
  clear hc
  induction hflush with
  | refl => exact hw
  | tail hab hstep ih =>
    exact Encode.frFlushStep_preserves SIZE BLK MU hMU1 hMU4 hstep ih

/-- Witness for C9 (amended): with the encoder's input-ring constants
(`RING_SIZE = 0x8_0000`, `RING_BLK_SIZE = 0x4000`, FSE match unit 4) the
freshly initialized frontend — reachable by zero operations — satisfies
`validate_global`. -/
theorem claimC9_witness :
    Encode.validateGlobal 0x80000 0x4000 (Encode.frInit 0x4000) :=
  (claimC9_ring_invariant 0x80000 0x4000 4 (by norm_num) (by norm_num)
      (by norm_num) (by norm_num) (by norm_num)).1
    (Encode.frInit 0x4000) Encode.ReachCore.init

/-- Counterexample to C9 as stated: with the encoder's input-ring
constants, write twenty bytes into the fresh frontend and flush them as a
raw block (exactly what encoding twenty bytes does). The resulting
reachable state has `L = T = 20` but `I = 0`, violating
`L ≤ I` — so the claimed invariant does not hold in every reachable
state, and `flush_raw` does not preserve it. -/
theorem claimC9_counterexample :
    Encode.ReachAll 0x80000 0x4000 4 ⟨0, 20, 0, 20, 0x4000⟩ ∧
      ¬ Encode.validateGlobal 0x80000 0x4000 ⟨0, 20, 0, 20, 0x4000⟩ := by
  constructor
  · refine ⟨⟨0, 0, 0, 20, 0x4000⟩, ?_, ?_⟩
    · refine Encode.ReachCore.step _ _ Encode.ReachCore.init ?_
      exact Encode.FRStep.write 0 0 0 0 0x4000 20 (by norm_num)
    · exact Relation.ReflTransGen.single (Encode.FRFlushStep.rawFlush 0 0 0 20 0x4000)
  · intro hv
    simp only [Encode.validateGlobal] at hv
    omega

/-- Supporting fact for the raw/EOS path (first half of spec scenario 1):
flushing an empty input emits exactly a zero-length raw block followed by
the end-of-stream magic, twelve bytes in all, whatever the backends would
have produced. -/
theorem flushBytes_empty (fseOut vnOut : List Nat) :
    Encode.flushBytes fseOut vnOut [] [] =
      [0x62, 0x76, 0x78, 0x2D, 0x00, 0x00, 0x00, 0x00,
        0x62, 0x76, 0x78, 0x24] := rfl
